import Mathlib

/-! NumericalTypeSystemExample.cpp

A shallow embedding of `src/C++/caseykneale/NumericalTypeSystemExample.cpp`.

The C++ templates `plusMinus<T>` are embedded as functions that are generic in
the scalar type `T`; the `double` functions are embedded as functions generic in
a carrier `D` that supplies the arithmetic of `double` together with the two
`<math.h>` functions the program calls.  The same program text is then read

* over `ℝ` (exact arithmetic, `Real.sqrt`, real power), and
* over `F64`, an executable model of IEEE-754 binary64 with round-to-nearest-even,
  signed zeros, infinities and not-a-number.

A heap array `T* result = new T[2]` is embedded as the pair
`(result[0], result[1])`.
-/

namespace NumericalTypeSystemExample

/-! ## The program -/

/-- The functions of `<math.h>` used by the program. -/
class CMath (D : Type) where
  /-- The function `sqrt(x)`. -/
  sqrt : D → D
  /-- The function `pow(x, y)`. -/
  pow : D → D → D

/-- Unary `template <class T> T* plusMinus (T a)`:
`result[0] = a; result[1] = static_cast<T>(-1) * a;`. -/
def plusMinus {T : Type} [IntCast T] [Mul T] (a : T) : T × T :=
  (a, ((-1 : Int) : T) * a)

/-- Binary `template <class T> T* plusMinus (T a, T b)`:
`result[0] = a + b; result[1] = a - b;`. -/
def plusMinus2 {T : Type} [Add T] [Sub T] (a b : T) : T × T :=
  (a + b, a - b)

section Double

variable {D : Type} [Add D] [Sub D] [Mul D] [Div D] [Neg D] [IntCast D] [OfScientific D]
  [CMath D]

/-- The overload `double* quadraticEquation(double a, double b, double c)`:
```
double* result = plusMinus<double>(-b, sqrt(pow(b, 2.0) - (4.0*a*c)) );
result[0] /= 2.0 * a;
result[1] /= 2.0 * a;
```
-/
def quadraticEquation (a b c : D) : D × D :=
  let result := plusMinus2 (-b) (CMath.sqrt (CMath.pow b 2.0 - (4.0 * a * c)))
  let result := (result.1 / (2.0 * a), result.2)
  let result := (result.1, result.2 / (2.0 * a))
  result

/-- The overload `double* quadraticEquation(int a, int b, int c)`: the three
arguments go through `static_cast<double>` and the `double` overload is called.
The C++ `int` is a bounded integer; the embedding accepts every integer. -/
def quadraticEquationInt (a b c : Int) : D × D :=
  let a_dbl : D := (a : D)
  let b_dbl : D := (b : D)
  let c_dbl : D := (c : D)
  let result := quadraticEquation a_dbl b_dbl c_dbl
  result

/-- The overload `double* pythagoreanTheorem(double b, double c)`:
`plusMinus<double>( sqrt(pow(b,2.0) + pow(c,2.0)) )`. -/
def pythagoreanTheorem (b c : D) : D × D :=
  let result := plusMinus (CMath.sqrt (CMath.pow b 2.0 + CMath.pow c 2.0))
  result

/-- The overload `double* pythagoreanTheorem(int b, int c)`. -/
def pythagoreanTheoremInt (b c : Int) : D × D :=
  let b_dbl : D := (b : D)
  let c_dbl : D := (c : D)
  let result := pythagoreanTheorem b_dbl c_dbl
  result

/-- The four pairs `main` computes and hands to `showFirstTwo`, in the order printed:
with `a_int = 2, b_int = 5, c_int = -3` and `a_dbl = 2.0, b_dbl = 5.0, c_dbl = -3.0`,
`pythagoreanTheorem(a_int, b_int)`, `pythagoreanTheorem(a_dbl, b_dbl)`,
`quadraticEquation(a_int, b_int, c_int)`, `quadraticEquation(a_dbl, b_dbl, c_dbl)`. -/
def main : List (D × D) :=
  let a_int : Int := 2
  let b_int : Int := 5
  let c_int : Int := -3
  let a_dbl : D := 2.0
  let b_dbl : D := 5.0
  let c_dbl : D := -3.0
  [pythagoreanTheoremInt a_int b_int, pythagoreanTheorem a_dbl b_dbl,
   quadraticEquationInt a_int b_int c_int, quadraticEquation a_dbl b_dbl c_dbl]

end Double

/-! ## Reading the program over the reals -/

/-- Over `ℝ`, `sqrt` is the real square root and `pow` the real power. -/
noncomputable instance : CMath ℝ where
  sqrt := Real.sqrt
  pow x y := x ^ y

/-! ## Reading the program over IEEE-754 binary64 -/

/-- An IEEE-754 binary64 datum.  `fin neg m e` stands for `(-1)^neg * m * 2^e`; the
arithmetic below returns it with `m < 2^53`, `-1074 ≤ e ≤ 971`, and `2^52 ≤ m` unless
`e = -1074` (subnormal numbers and the two zeros). -/
inductive F64 where
  | nan : F64
  | inf (neg : Bool) : F64
  | fin (neg : Bool) (m : Nat) (e : Int) : F64
  deriving DecidableEq

namespace F64

/-- Doubling search: some `p` with `n < 2 ^ p`, starting from `p`. -/
def bitBound : Nat → Nat → Nat → Nat
  | 0, _, p => p
  | fuel + 1, n, p => if n < 2 ^ p then p else bitBound fuel n (2 * p)

/-- Bisection: with `2 ^ lo ≤ n < 2 ^ hi`, the `s` with `2 ^ (s - 1) ≤ n < 2 ^ s`. -/
def bitSearch : Nat → Nat → Nat → Nat → Nat
  | 0, _, _, hi => hi
  | fuel + 1, n, lo, hi =>
    if hi ≤ lo + 1 then hi
    else if n < 2 ^ ((lo + hi) / 2) then bitSearch fuel n lo ((lo + hi) / 2)
    else bitSearch fuel n ((lo + hi) / 2) hi

/-- Number of binary digits of `n` (`0` for `n = 0`). -/
def bitLength (n : Nat) : Nat :=
  if n = 0 then 0 else bitSearch n n 0 (bitBound n n 1)

/-- Newton iteration for the integer square root, from `x ≥ ⌊√n⌋`; each step lowers
`x`, so `fuel ≥ x` is enough. -/
def isqrtGo : Nat → Nat → Nat → Nat
  | 0, _, x => x
  | fuel + 1, n, x => if (x + n / x) / 2 < x then isqrtGo fuel n ((x + n / x) / 2) else x

/-- Integer square root `⌊√n⌋`. -/
def isqrt (n : Nat) : Nat :=
  if n = 0 then 0
  else isqrtGo (2 ^ ((bitLength n + 1) / 2)) n (2 ^ ((bitLength n + 1) / 2))

/-- Zero of the given sign. -/
def zero (neg : Bool) : F64 := fin neg 0 (-1074)

/-- Overflow check of a rounded significand and exponent. -/
def finish (neg : Bool) (m : Nat) (e : Int) : F64 :=
  if 971 < e then inf neg else fin neg m e

/-- The quotient `M / 2^sh` rounded to the nearest integer, a tie going to the even
neighbour. -/
def roundShift (M sh : Nat) : Nat :=
  let q := M / 2 ^ sh
  let r := M % 2 ^ sh
  let half := 2 ^ (sh - 1)
  if half < r ∨ (r = half ∧ q % 2 = 1) then q + 1 else q

/-- Round-to-nearest, ties-to-even, of the exact value `(-1)^neg * M * 2^E`. -/
def roundRN (neg : Bool) (M : Nat) (E : Int) : F64 :=
  if M = 0 then zero neg
  else
    let e : Int := max (E + (bitLength M : Int) - 53) (-1074)
    if e ≤ E then finish neg (M * 2 ^ (E - e).toNat) e
    else
      let q1 := roundShift M (e - E).toNat
      if q1 = 2 ^ 53 then finish neg (2 ^ 52) (e + 1) else finish neg q1 e

/-- Round-to-nearest-even of `(-1)^neg * (n / d) * 2^E`, for `d ≠ 0`: the quotient is
taken to more than 64 binary digits and a nonzero remainder is kept as one more odd digit. -/
def roundQuot (neg : Bool) (n d : Nat) (E : Int) : F64 :=
  if n = 0 then zero neg
  else
    let k := bitLength d + 64
    let q := (n * 2 ^ k) / d
    let r := (n * 2 ^ k) % d
    if r = 0 then roundRN neg q (E - k) else roundRN neg (2 * q + 1) (E - k - 1)

/-- Unary minus: flips the sign. -/
def neg : F64 → F64
  | nan => nan
  | inf s => inf (!s)
  | fin s m e => fin (!s) m e

/-- IEEE-754 addition. -/
def add : F64 → F64 → F64
  | nan, _ => nan
  | _, nan => nan
  | inf s, inf t => if s = t then inf s else nan
  | inf s, fin _ _ _ => inf s
  | fin _ _ _, inf t => inf t
  | fin s1 m1 e1, fin s2 m2 e2 =>
    let e := min e1 e2
    let a := m1 * 2 ^ (e1 - e).toNat
    let b := m2 * 2 ^ (e2 - e).toNat
    if s1 = s2 then roundRN s1 (a + b) e
    else if a = b then zero false
    else if b < a then roundRN s1 (a - b) e
    else roundRN s2 (b - a) e

/-- IEEE-754 subtraction, `x - y = x + (-y)`. -/
def sub (x y : F64) : F64 := add x (neg y)

/-- IEEE-754 multiplication. -/
def mul : F64 → F64 → F64
  | nan, _ => nan
  | _, nan => nan
  | inf s, inf t => inf (xor s t)
  | inf s, fin t m _ => if m = 0 then nan else inf (xor s t)
  | fin s m _, inf t => if m = 0 then nan else inf (xor s t)
  | fin s1 m1 e1, fin s2 m2 e2 => roundRN (xor s1 s2) (m1 * m2) (e1 + e2)

/-- IEEE-754 division. -/
def div : F64 → F64 → F64
  | nan, _ => nan
  | _, nan => nan
  | inf _, inf _ => nan
  | inf s, fin t _ _ => inf (xor s t)
  | fin s _ _, inf t => zero (xor s t)
  | fin s1 m1 e1, fin s2 m2 e2 =>
    if m2 = 0 then (if m1 = 0 then nan else inf (xor s1 s2))
    else roundQuot (xor s1 s2) m1 m2 (e1 - e2)

/-- IEEE-754 `squareRoot`, which `sqrt` of `<math.h>` computes. -/
def sqrt : F64 → F64
  | nan => nan
  | inf s => if s then nan else inf false
  | fin s m e =>
    if m = 0 then zero s
    else if s then nan
    else
      let k : Nat := 128 + (e % 2).toNat
      let M := m * 2 ^ k
      let r := isqrt M
      if r * r = M then roundRN false r ((e - k) / 2)
      else roundRN false (2 * r + 1) ((e - k) / 2 - 1)

/-- Whether the datum is a finite number of value two, the exponent `2.0`. -/
def isTwo : F64 → Bool
  | fin false m e => m * 2 ^ e.toNat == 2 * 2 ^ (-e).toNat
  | _ => false

/-- The function `pow(x, y)` of `<math.h>` at the one exponent the program passes,
`y = 2.0`, idealised as the correctly rounded square, `+∞` for `±∞` and not-a-number
for not-a-number.  A `pow` of a C library agrees with it wherever the square is a
double (as at `pow(±0, 2.0)`, `pow(2.0, 2.0)`, `pow(5.0, 2.0)`), and may differ from it
by one unit in the last place where the square is rounded; `F64.libm` takes the `pow`
of the platform as a parameter for that reason.  Other exponents are outside this
model; it answers not-a-number there. -/
def pow (x y : F64) : F64 :=
  if isTwo y then
    match x with
    | nan => nan
    | inf _ => inf false
    | fin _ m e => roundRN false (m * m) (e + e)
  else nan

/-- The conversion `static_cast<double>(n)` of an integer. -/
def ofInt (n : Int) : F64 := roundRN (decide (n < 0)) n.natAbs 0

/-- A decimal literal `m * 10^(-k)` (`sign = true`) or `m * 10^k`, correctly rounded. -/
def ofDecimal (m : Nat) (sign : Bool) (k : Nat) : F64 :=
  if sign then roundQuot false m (10 ^ k) 0 else roundRN false (m * 10 ^ k) 0

/-- The comparison `x < y` of IEEE-754: false when either side is not-a-number. -/
def lt : F64 → F64 → Bool
  | nan, _ => false
  | _, nan => false
  | inf s, inf t => s && !t
  | inf s, fin _ _ _ => s
  | fin _ _ _, inf t => !t
  | fin s1 m1 e1, fin s2 m2 e2 =>
    let e := min e1 e2
    let a : Int := if s1 then -((m1 * 2 ^ (e1 - e).toNat : Nat) : Int) else (m1 * 2 ^ (e1 - e).toNat : Nat)
    let b : Int := if s2 then -((m2 * 2 ^ (e2 - e).toNat : Nat) : Int) else (m2 * 2 ^ (e2 - e).toNat : Nat)
    decide (a < b)

/-- The test `isnan(x)`. -/
def isNaN : F64 → Bool
  | nan => true
  | _ => false

/-- The test `isinf(x)`. -/
def isInf : F64 → Bool
  | inf _ => true
  | _ => false

/-- The test `isfinite(x)`. -/
def isFinite : F64 → Bool
  | fin _ _ _ => true
  | _ => false

/-- Whether the datum is `+0` or `-0`. -/
def isZero : F64 → Bool
  | fin _ m _ => m == 0
  | _ => false

/-- The rational number a finite datum stands for. -/
def toRat : F64 → Option ℚ
  | fin s m e => some ((if s then -1 else 1) * (m : ℚ) * (2 : ℚ) ^ e)
  | _ => none

/-- The operand format: significand below `2^53`, exponent between `-1074` and `971`,
and a significand of full width unless the exponent is the least one. -/
def Canonical : F64 → Prop
  | fin _ m e => m < 2 ^ 53 ∧ -1074 ≤ e ∧ e ≤ 971 ∧ (2 ^ 52 ≤ m ∨ e = -1074)
  | _ => True

end F64

instance : Add F64 := ⟨F64.add⟩
instance : Sub F64 := ⟨F64.sub⟩
instance : Mul F64 := ⟨F64.mul⟩
instance : Div F64 := ⟨F64.div⟩
instance : Neg F64 := ⟨F64.neg⟩
instance : IntCast F64 := ⟨F64.ofInt⟩
instance : OfScientific F64 := ⟨F64.ofDecimal⟩

/-- Over `F64`, `sqrt` and `pow` are the binary64 functions. -/
instance : CMath F64 where
  sqrt := F64.sqrt
  pow := F64.pow

/-- The `<math.h>` of a platform whose `pow` is the function `powf`, whatever it
returns; `sqrt` is the square root of IEEE-754. -/
def F64.libm (powf : F64 → F64 → F64) : CMath F64 where
  sqrt := F64.sqrt
  pow := powf

/-! ## Reading `plusMinus<T>` over machine integers -/

/-- A value of a signed `w`-bit two's-complement integer type, as the integer it stands
for; `InRange` says that the integer is one the type has. -/
structure Signed (w : Nat) where
  /-- The integer the value stands for. -/
  val : Int
  deriving DecidableEq

namespace Signed

/-- Wraparound modulo `2^w` into `-2^(w-1) ≤ x < 2^(w-1)`. -/
def wrap (w : Nat) (x : Int) : Int := (x + 2 ^ (w - 1)) % 2 ^ w - 2 ^ (w - 1)

/-- The values of the type: `-2^(w-1) ≤ val < 2^(w-1)`. -/
def InRange {w : Nat} (a : Signed w) : Prop := -(2 ^ (w - 1)) ≤ a.val ∧ a.val < 2 ^ (w - 1)

instance {w : Nat} (a : Signed w) : Decidable a.InRange :=
  inferInstanceAs (Decidable (-(2 ^ (w - 1)) ≤ a.val ∧ a.val < 2 ^ (w - 1)))

/-- The conversion `static_cast<T>(n)`. -/
def ofInt {w : Nat} (n : Int) : Signed w := ⟨wrap w n⟩

/-- The product `a * b` in the type, overflow wrapping around. -/
def mul {w : Nat} (a b : Signed w) : Signed w := ⟨wrap w (a.val * b.val)⟩

end Signed

instance {w : Nat} : IntCast (Signed w) := ⟨Signed.ofInt⟩
instance {w : Nat} : Mul (Signed w) := ⟨Signed.mul⟩

/-- A value of an unsigned `w`-bit integer type, as the natural number it stands for;
`InRange` says that the number is one the type has. -/
structure Unsigned (w : Nat) where
  /-- The natural number the value stands for. -/
  val : Nat
  deriving DecidableEq

namespace Unsigned

/-- The values of the type: `val < 2^w`. -/
def InRange {w : Nat} (a : Unsigned w) : Prop := a.val < 2 ^ w

instance {w : Nat} (a : Unsigned w) : Decidable a.InRange :=
  inferInstanceAs (Decidable (a.val < 2 ^ w))

/-- The conversion `static_cast<T>(n)`: the residue of `n` modulo `2^w`. -/
def ofInt {w : Nat} (n : Int) : Unsigned w := ⟨(n % 2 ^ w).toNat⟩

/-- The product `a * b` in the type, modulo `2^w`. -/
def mul {w : Nat} (a b : Unsigned w) : Unsigned w := ⟨(a.val * b.val) % 2 ^ w⟩

end Unsigned

instance {w : Nat} : IntCast (Unsigned w) := ⟨Unsigned.ofInt⟩
instance {w : Nat} : Mul (Unsigned w) := ⟨Unsigned.mul⟩

/-! ## The program over the reals: normal forms -/

theorem cmath_sqrt_real (x : ℝ) : CMath.sqrt x = Real.sqrt x := rfl

theorem lit_two_real : (2.0 : ℝ) = 2 := by norm_num

theorem lit_four_real : (4.0 : ℝ) = 4 := by norm_num

theorem cmath_pow_two_real (x : ℝ) : CMath.pow x (2 : ℝ) = x ^ 2 := by
  show x ^ (2 : ℝ) = x ^ 2
  exact Real.rpow_two x

theorem quadraticEquation_real (a b c : ℝ) :
    quadraticEquation a b c =
      ((-b + Real.sqrt (b ^ 2 - 4 * a * c)) / (2 * a),
       (-b - Real.sqrt (b ^ 2 - 4 * a * c)) / (2 * a)) := by
  simp only [quadraticEquation, plusMinus2, cmath_sqrt_real, lit_two_real, lit_four_real,
    cmath_pow_two_real]

theorem pythagoreanTheorem_real (b c : ℝ) :
    pythagoreanTheorem b c =
      (Real.sqrt (b ^ 2 + c ^ 2), -Real.sqrt (b ^ 2 + c ^ 2)) := by
  simp only [pythagoreanTheorem, plusMinus, cmath_sqrt_real, lit_two_real, cmath_pow_two_real]
  simp

/-! ## Claims about the program over the reals -/

/-- C1: for all real `a, b, c` with `a ≠ 0` and `b² − 4ac ≥ 0`, each of the two values
returned by `quadraticEquation(a, b, c)` is a root: `a·x² + b·x + c = 0` for
`x = result[0]` and for `x = result[1]`, the arithmetic being read over the reals. -/
theorem C1_quadraticEquation_roots (a b c : ℝ) (ha : a ≠ 0) (hd : 0 ≤ b ^ 2 - 4 * a * c) :
    a * (quadraticEquation a b c).1 ^ 2 + b * (quadraticEquation a b c).1 + c = 0 ∧
    a * (quadraticEquation a b c).2 ^ 2 + b * (quadraticEquation a b c).2 + c = 0 := by
  rw [quadraticEquation_real]
  have hs : Real.sqrt (b ^ 2 - 4 * a * c) ^ 2 = b ^ 2 - 4 * a * c := Real.sq_sqrt hd
  generalize Real.sqrt (b ^ 2 - 4 * a * c) = s at hs
  constructor
  · have h : a * ((-b + s) / (2 * a)) ^ 2 + b * ((-b + s) / (2 * a)) + c
        = (s ^ 2 - (b ^ 2 - 4 * a * c)) / (4 * a) := by
      field_simp
      ring
    show a * ((-b + s) / (2 * a)) ^ 2 + b * ((-b + s) / (2 * a)) + c = 0
    rw [h, hs, sub_self, zero_div]
  · have h : a * ((-b - s) / (2 * a)) ^ 2 + b * ((-b - s) / (2 * a)) + c
        = (s ^ 2 - (b ^ 2 - 4 * a * c)) / (4 * a) := by
      field_simp
      ring
    show a * ((-b - s) / (2 * a)) ^ 2 + b * ((-b - s) / (2 * a)) + c = 0
    rw [h, hs, sub_self, zero_div]

/-- Witness for C1 at `2x² + 5x − 3 = 0`, the equation solved by `main`. -/
theorem C1_quadraticEquation_roots_witness :
    (2 : ℝ) * (quadraticEquation (2 : ℝ) 5 (-3)).1 ^ 2
        + 5 * (quadraticEquation (2 : ℝ) 5 (-3)).1 + (-3) = 0 ∧
    (2 : ℝ) * (quadraticEquation (2 : ℝ) 5 (-3)).2 ^ 2
        + 5 * (quadraticEquation (2 : ℝ) 5 (-3)).2 + (-3) = 0 :=
  C1_quadraticEquation_roots 2 5 (-3) (by norm_num) (by norm_num)

/-- C2: for all `a, b, c`, `quadraticEquation(a, b, c)` is the ordered pair
`((−b + root)/(2a), (−b − root)/(2a))` with `root = sqrt(b² − 4ac)`: the `+` branch is
element 0, the `−` branch is element 1, and both are divided by `2a`.  Stated over the
reals, and over binary64 with the program's own operations. -/
theorem C2_quadraticEquation_formula :
    (∀ a b c : ℝ,
      (quadraticEquation a b c).1 = (-b + Real.sqrt (b ^ 2 - 4 * a * c)) / (2 * a) ∧
      (quadraticEquation a b c).2 = (-b - Real.sqrt (b ^ 2 - 4 * a * c)) / (2 * a)) ∧
    (∀ a b c : F64,
      (quadraticEquation a b c).1
        = (-b + F64.sqrt (F64.pow b 2.0 - 4.0 * a * c)) / (2.0 * a) ∧
      (quadraticEquation a b c).2
        = (-b - F64.sqrt (F64.pow b 2.0 - 4.0 * a * c)) / (2.0 * a)) := by
  refine ⟨fun a b c => ?_, fun a b c => ⟨rfl, rfl⟩⟩
  rw [quadraticEquation_real]
  exact ⟨rfl, rfl⟩

/-- C3: for all real `b, c`, `pythagoreanTheorem(b, c)` is a pair `(h, −h)` with `h ≥ 0`
and `h² = b² + c²`; the second element is the exact negation of the first. -/
theorem C3_pythagoreanTheorem_pair (b c : ℝ) :
    (pythagoreanTheorem b c).2 = -(pythagoreanTheorem b c).1 ∧
    0 ≤ (pythagoreanTheorem b c).1 ∧
    (pythagoreanTheorem b c).1 ^ 2 = b ^ 2 + c ^ 2 := by
  rw [pythagoreanTheorem_real]
  refine ⟨rfl, Real.sqrt_nonneg _, ?_⟩
  exact Real.sq_sqrt (add_nonneg (sq_nonneg b) (sq_nonneg c))

/-- C4: for all reals `a, b`, the binary `plusMinus(a, b)` is the ordered pair
`(a + b, a − b)`: element 0 is the sum and element 1 the difference. -/
theorem C4_plusMinus2_pair (a b : ℝ) :
    plusMinus2 a b = (a + b, a - b) ∧
    (plusMinus2 a b).1 = a + b ∧ (plusMinus2 a b).2 = a - b :=
  ⟨rfl, rfl, rfl⟩

/-- C5: for every real `a`, the unary `plusMinus(a)` is the ordered pair `(a, −a)`:
element 0 is `a` unchanged and element 1, computed as `(−1)·a`, is the negation of `a`. -/
theorem C5_plusMinus_pair (a : ℝ) :
    plusMinus a = (a, -a) ∧ (plusMinus a).1 = a ∧
    (plusMinus a).2 = (-1) * a ∧ (plusMinus a).2 = -a := by
  have h : (plusMinus a).2 = (-1) * a := by
    show ((-1 : Int) : ℝ) * a = (-1) * a
    norm_num
  refine ⟨?_, rfl, h, by rw [h]; ring⟩
  exact Prod.ext rfl (by rw [h]; ring)

/-- C6: for all integers `a, b, c`, the overload `quadraticEquation(int, int, int)`
returns the pair of the floating-point overload at `a, b, c` widened by
`static_cast<double>`, and `pythagoreanTheorem(int, int)` likewise.  This holds whatever
the arithmetic of the carrier is: the integer overloads do no arithmetic of their own. -/
theorem C6_int_overloads_delegate {D : Type} [Add D] [Sub D] [Mul D] [Div D] [Neg D]
    [IntCast D] [OfScientific D] [CMath D] (a b c : Int) :
    (quadraticEquationInt a b c : D × D) = quadraticEquation (a : D) (b : D) (c : D) ∧
    (pythagoreanTheoremInt b c : D × D) = pythagoreanTheorem (b : D) (c : D) :=
  ⟨rfl, rfl⟩

/-! ## The binary64 model: its integer helpers and some evaluations -/

theorem F64.bitBound_lt (fuel n p : Nat) (h : n < 2 ^ (p * 2 ^ fuel)) :
    n < 2 ^ bitBound fuel n p := by
  induction fuel generalizing p with
  | zero => simpa [bitBound] using h
  | succ k ih =>
    unfold bitBound
    split
    · assumption
    · apply ih
      rw [pow_succ] at h
      rwa [show 2 * p * 2 ^ k = p * (2 ^ k * 2) by ring]

theorem F64.bitBound_le (fuel n p : Nat) (hp : 0 < p) (h : p ≤ n + 1) :
    bitBound fuel n p ≤ n + 1 := by
  induction fuel generalizing p with
  | zero => simpa [bitBound] using h
  | succ k ih =>
    unfold bitBound
    split
    · assumption
    · rename_i hlt
      apply ih _ (by omega)
      have h1 : 2 ^ p ≤ n := Nat.le_of_not_lt hlt
      have h2 : 2 * p ≤ 2 ^ p := by
        cases p with
        | zero => omega
        | succ q =>
          have := Nat.lt_two_pow q
          rw [pow_succ]
          omega
      omega

theorem F64.bitSearch_spec (fuel n lo hi : Nat) (hf : hi ≤ lo + fuel + 1)
    (hlo : 2 ^ lo ≤ n) (hhi : n < 2 ^ hi) :
    2 ^ (bitSearch fuel n lo hi - 1) ≤ n ∧ n < 2 ^ bitSearch fuel n lo hi := by
  have hlt : lo < hi := by
    by_contra hc
    have : 2 ^ hi ≤ 2 ^ lo := Nat.pow_le_pow_right (by norm_num) (Nat.le_of_not_lt hc)
    omega
  induction fuel generalizing lo hi with
  | zero =>
    have : hi = lo + 1 := by omega
    subst this
    simpa [bitSearch] using ⟨hlo, hhi⟩
  | succ k ih =>
    unfold bitSearch
    split
    · have : hi = lo + 1 := by omega
      subst this
      simpa using ⟨hlo, hhi⟩
    · split
      · rename_i h1 h2
        apply ih _ _ (by omega) hlo h2
        by_contra hc
        have : 2 ^ ((lo + hi) / 2) ≤ 2 ^ lo := Nat.pow_le_pow_right (by norm_num) (Nat.le_of_not_lt hc)
        omega
      · rename_i h1 h2
        exact ih _ _ (by omega) (Nat.le_of_not_lt h2) hhi (by omega)

/-- The digit count agrees with `Nat.size`. -/
theorem F64.bitLength_eq_size (n : Nat) : bitLength n = Nat.size n := by
  unfold bitLength
  split
  · rename_i h; subst h; simp
  · rename_i h
    have hb : n < 2 ^ bitBound n n 1 := by
      apply bitBound_lt
      calc n < 2 ^ n := Nat.lt_two_pow n
        _ ≤ 2 ^ (1 * 2 ^ n) := Nat.pow_le_pow_right (by norm_num) (by
            have := Nat.lt_two_pow n; omega)
    have hle : bitBound n n 1 ≤ n + 1 := bitBound_le n n 1 (by omega) (by omega)
    obtain ⟨h1, h2⟩ := bitSearch_spec n n 0 (bitBound n n 1) (by omega)
      (by simpa using Nat.one_le_iff_ne_zero.mpr h) hb
    apply le_antisymm
    · by_contra hc
      have h3 : Nat.size n ≤ bitSearch n n 0 (bitBound n n 1) - 1 := by omega
      have := Nat.size_le.mp h3
      omega
    · exact Nat.size_le.mpr h2

theorem F64.isqrtGo_eq_iter (fuel n x : Nat) (h : x ≤ fuel) :
    isqrtGo fuel n x = Nat.sqrt.iter n x := by
  induction fuel generalizing x with
  | zero =>
    have : x = 0 := by omega
    subst this
    unfold isqrtGo Nat.sqrt.iter
    simp
  | succ k ih =>
    unfold isqrtGo
    rw [Nat.sqrt.iter]
    by_cases hlt : (x + n / x) / 2 < x
    · have hk : (x + n / x) / 2 ≤ k := by omega
      simp only [hlt, if_true, dif_pos, ih _ hk]
    · simp only [hlt, if_false, dif_neg, not_false_eq_true]

/-- The integer square root agrees with `Nat.sqrt`. -/
theorem F64.isqrt_eq_sqrt (n : Nat) : isqrt n = Nat.sqrt n := by
  unfold isqrt
  split
  · rename_i h; subst h; rfl
  · rw [isqrtGo_eq_iter _ _ _ le_rfl]
    apply Nat.eq_sqrt.mpr
    refine ⟨Nat.sqrt.iter_sq_le _ _, Nat.sqrt.lt_iter_succ_sq _ _ ?_⟩
    have h1 : n < 2 ^ bitLength n := by
      rw [bitLength_eq_size]; exact Nat.size_le.mp le_rfl
    have h2 : 2 ^ bitLength n ≤ 2 ^ ((bitLength n + 1) / 2) * 2 ^ ((bitLength n + 1) / 2) := by
      rw [← pow_add]
      exact Nat.pow_le_pow_right (by norm_num) (by omega)
    have h3 : 2 ^ ((bitLength n + 1) / 2) * 2 ^ ((bitLength n + 1) / 2)
        ≤ (2 ^ ((bitLength n + 1) / 2) + 1) * (2 ^ ((bitLength n + 1) / 2) + 1) :=
      Nat.mul_le_mul (Nat.le_succ _) (Nat.le_succ _)
    exact lt_of_lt_of_le h1 (le_trans h2 h3)
theorem F64.finish_eq_fin (s : Bool) (m : Nat) (e : Int) (s1 : Bool) (m1 : Nat) (e1 : Int)
    (h : F64.finish s m e = F64.fin s1 m1 e1) : s1 = s ∧ m1 = m ∧ e1 = e ∧ e ≤ 971 := by
  unfold F64.finish at h
  split at h
  · cases h
  · cases h
    exact ⟨rfl, rfl, rfl, by omega⟩

/-- The rounded quotient is within half a unit of `M / 2^sh`. -/
theorem F64.roundShift_near (M sh : Nat) (hsh : 0 < sh) :
    2 * (F64.roundShift M sh * 2 ^ sh) ≤ 2 * M + 2 ^ sh ∧
    2 * M ≤ 2 * (F64.roundShift M sh * 2 ^ sh) + 2 ^ sh := by
  have hP : 2 ^ sh = 2 * 2 ^ (sh - 1) := by
    rw [← pow_succ']
    congr 1
    omega
  have hM : M = M / 2 ^ sh * 2 ^ sh + M % 2 ^ sh := (Nat.div_add_mod' M (2 ^ sh)).symm
  have hr : M % 2 ^ sh < 2 ^ sh := Nat.mod_lt _ (by positivity)
  unfold F64.roundShift
  simp only
  split
  · rename_i hup
    rw [add_mul, one_mul]
    generalize M / 2 ^ sh * 2 ^ sh = t at hM
    omega
  · rename_i hup
    generalize M / 2 ^ sh * 2 ^ sh = t at hM
    omega

/-- A finite result of `roundRN` carries the given sign and is the exact value when no
digit is dropped, and within half a unit in the last place of it otherwise. -/
theorem F64.roundRN_eq_fin (s : Bool) (M : Nat) (E : Int) (s1 : Bool) (m : Nat) (e : Int)
    (h : F64.roundRN s M E = F64.fin s1 m e) :
    s1 = s ∧ e ≤ 971 ∧
    ((e ≤ E ∧ m = M * 2 ^ (E - e).toNat) ∨
     (E < e ∧ 2 * (m * 2 ^ (e - E).toNat) ≤ 2 * M + 2 ^ (e - E).toNat ∧
        2 * M ≤ 2 * (m * 2 ^ (e - E).toNat) + 2 ^ (e - E).toNat)) := by
  unfold F64.roundRN at h
  split at h
  · rename_i hM
    subst hM
    cases h
    refine ⟨rfl, by norm_num, ?_⟩
    by_cases hE : (-1074 : Int) ≤ E
    · left; exact ⟨hE, by simp⟩
    · right; exact ⟨by omega, by simp, by simp⟩
  · simp only at h
    generalize max (E + (F64.bitLength M : Int) - 53) (-1074) = e0 at h
    split at h
    · rename_i hM he
      obtain ⟨h1, h2, h3, h4⟩ := F64.finish_eq_fin _ _ _ _ _ _ h
      subst h1 h2 h3
      exact ⟨rfl, h4, Or.inl ⟨he, rfl⟩⟩
    · rename_i hM he
      have hsh : 0 < (e0 - E).toNat := by omega
      have key := F64.roundShift_near M (e0 - E).toNat hsh
      split at h
      · rename_i hq
        obtain ⟨h1, h2, h3, h4⟩ := F64.finish_eq_fin _ _ _ _ _ _ h
        subst h1 h2 h3
        refine ⟨rfl, h4, Or.inr ⟨by omega, ?_⟩⟩
        rw [hq] at key
        have e1 : (e0 + 1 - E).toNat = (e0 - E).toNat + 1 := by omega
        have e2 : 2 ^ ((e0 - E).toNat + 1) = 2 * 2 ^ (e0 - E).toNat := pow_succ' 2 _
        rw [e1, e2]
        generalize 2 ^ (e0 - E).toNat = P at key
        omega
      · obtain ⟨h1, h2, h3, h4⟩ := F64.finish_eq_fin _ _ _ _ _ _ h
        subst h1 h2 h3
        exact ⟨rfl, h4, Or.inr ⟨by omega, key⟩⟩


/-- The digit count `s` of a nonzero `M` satisfies `2^(s-1) ≤ M < 2^s`. -/
theorem F64.bitLength_spec (M : Nat) (hM : M ≠ 0) :
    2 ^ (F64.bitLength M - 1) ≤ M ∧ M < 2 ^ F64.bitLength M ∧ 0 < F64.bitLength M := by
  rw [F64.bitLength_eq_size]
  have h0 : 0 < Nat.size M := Nat.size_pos.mpr (Nat.pos_of_ne_zero hM)
  exact ⟨Nat.lt_size.mp (by omega), Nat.size_le.mp le_rfl, h0⟩

theorem F64.roundShift_bounds (M sh : Nat) :
    M / 2 ^ sh ≤ F64.roundShift M sh ∧ F64.roundShift M sh ≤ M / 2 ^ sh + 1 := by
  unfold F64.roundShift
  simp only
  split <;> omega

/-- Every result of `roundRN` is in the operand format. -/
theorem F64.roundRN_canonical (s : Bool) (M : Nat) (E : Int) :
    F64.Canonical (F64.roundRN s M E) := by
  unfold F64.roundRN
  split
  · simp [F64.zero, F64.Canonical]
  · rename_i hM
    obtain ⟨hlo, hhi, hpos⟩ := F64.bitLength_spec M hM
    simp only
    generalize he0 : max (E + (F64.bitLength M : Int) - 53) (-1074) = e0
    generalize F64.bitLength M = bl at *
    have h1 : E + (bl : Int) - 53 ≤ e0 := by omega
    have h2 : (-1074 : Int) ≤ e0 := by omega
    have h3 : e0 = E + (bl : Int) - 53 ∨ e0 = -1074 := by omega
    split
    · rename_i he
      unfold F64.finish
      split
      · trivial
      · refine ⟨?_, h2, by omega, ?_⟩
        · calc M * 2 ^ (E - e0).toNat < 2 ^ bl * 2 ^ (E - e0).toNat :=
              Nat.mul_lt_mul_of_pos_right hhi (by positivity)
            _ = 2 ^ (bl + (E - e0).toNat) := (pow_add 2 _ _).symm
            _ ≤ 2 ^ 53 := Nat.pow_le_pow_right (by norm_num) (by omega)
        · rcases h3 with h3 | h3
          · left
            calc 2 ^ 52 = 2 ^ (bl - 1 + (E - e0).toNat) := by congr 1; omega
              _ = 2 ^ (bl - 1) * 2 ^ (E - e0).toNat := pow_add 2 _ _
              _ ≤ M * 2 ^ (E - e0).toNat := Nat.mul_le_mul_right _ hlo
          · right; exact h3
    · rename_i he
      obtain ⟨hq1, hq2⟩ := F64.roundShift_bounds M (e0 - E).toNat
      have hq : M / 2 ^ (e0 - E).toNat < 2 ^ 53 := by
        rw [Nat.div_lt_iff_lt_mul (by positivity)]
        calc M < 2 ^ bl := hhi
          _ ≤ 2 ^ (53 + (e0 - E).toNat) := Nat.pow_le_pow_right (by norm_num) (by omega)
          _ = 2 ^ 53 * 2 ^ (e0 - E).toNat := pow_add 2 _ _
      split
      · unfold F64.finish
        split
        · trivial
        · exact ⟨by norm_num, by omega, by omega, Or.inl (by norm_num)⟩
      · rename_i hne
        unfold F64.finish
        split
        · trivial
        · refine ⟨by omega, h2, by omega, ?_⟩
          rcases h3 with h3 | h3
          · left
            refine le_trans ?_ hq1
            rw [Nat.le_div_iff_mul_le (by positivity)]
            calc 2 ^ 52 * 2 ^ (e0 - E).toNat = 2 ^ (52 + (e0 - E).toNat) := (pow_add 2 _ _).symm
              _ = 2 ^ (bl - 1) := by congr 1; omega
              _ ≤ M := hlo
          · right; exact h3

/-- Evaluation: `0.1 + 0.2` is the double `0.30000000000000004`. -/
theorem F64.eval_add : (0.1 : F64) + 0.2 = F64.fin false 5404319552844596 (-54) := by decide

/-- Evaluation: `1.0 / 3.0`. -/
theorem F64.eval_div : (1.0 : F64) / 3.0 = F64.fin false 6004799503160661 (-54) := by decide

/-- Evaluation: `sqrt(2.0)`. -/
theorem F64.eval_sqrt : F64.sqrt 2.0 = F64.fin false 6369051672525773 (-52) := by decide

set_option exponentiation.threshold 4096 in
set_option maxRecDepth 10000 in
/-- Evaluation: overflow to `+∞`, and the largest finite double. -/
theorem F64.eval_overflow :
    (1e308 : F64) * 10.0 = F64.inf false ∧
    (1.7976931348623157e308 : F64) = F64.fin false 9007199254740991 971 := by decide

set_option exponentiation.threshold 4096 in
set_option maxRecDepth 10000 in
/-- Evaluation: the smallest subnormal, and a tie that rounds to the even neighbour. -/
theorem F64.eval_subnormal :
    (5e-324 : F64) = F64.fin false 1 (-1074) ∧
    (5e-324 : F64) / 2.0 = F64.fin false 0 (-1074) ∧
    (1.5 : F64) * 5e-324 = F64.fin false 2 (-1074) := by decide

set_option exponentiation.threshold 4096 in
set_option maxRecDepth 10000 in
/-- Evaluation: at `a = c = 2⁻⁶⁰⁰`, `b = 0` the product `4.0*a*c` underflows to zero, so
the discriminant the program computes is `+0`, not a negative number, and the pair is
`(+0, −0)`. -/
theorem F64.eval_underflow :
    CMath.pow (0.0 : F64) 2.0
        - 4.0 * F64.fin false 4503599627370496 (-652) * F64.fin false 4503599627370496 (-652)
      = F64.fin false 0 (-1074) ∧
    quadraticEquation (F64.fin false 4503599627370496 (-652)) 0.0
        (F64.fin false 4503599627370496 (-652))
      = (F64.fin false 0 (-1074), F64.fin true 0 (-1074)) := by decide

set_option exponentiation.threshold 4096 in
set_option maxRecDepth 10000 in
/-- Evaluation: at `a = 1`, `b = 268435459`, `c = 18014398912135172` the exact discriminant
is `−7`; with the correctly rounded square, `pow(b, 2.0)` and `4.0*a*c` are the same
double, the computed discriminant is `+0`, and both elements are `−134217729.5`. -/
theorem F64.eval_rounding :
    (268435459 : Int) ^ 2 - 4 * 1 * 18014398912135172 = -7 ∧
    CMath.pow (268435459.0 : F64) 2.0 - 4.0 * 1.0 * 18014398912135172.0
      = F64.fin false 0 (-1074) ∧
    quadraticEquation (1.0 : F64) 268435459.0 18014398912135172.0
      = (-134217729.5, -134217729.5) := by decide

/-! ## The program over binary64: auxiliary facts -/

theorem F64.lit_zero : (0.0 : F64) = F64.fin false 0 (-1074) := by decide

theorem F64.lit_two : (2.0 : F64) = F64.fin false 4503599627370496 (-51) := by decide

theorem F64.add_nan_right (x : F64) : x + F64.nan = F64.nan := by
  cases x <;> rfl

theorem F64.sub_nan_right (x : F64) : x - F64.nan = F64.nan := by
  cases x <;> rfl

theorem F64.nan_div (y : F64) : F64.nan / y = F64.nan := by
  cases y <;> rfl

/-- The square root of a datum that compares below zero is not-a-number. -/
theorem F64.sqrt_of_lt_zero (d : F64) (h : F64.lt d 0.0 = true) : F64.sqrt d = F64.nan := by
  rw [F64.lit_zero] at h
  cases d with
  | nan => simp [F64.lt] at h
  | inf s =>
    have hs : s = true := by simpa [F64.lt] using h
    subst hs
    rfl
  | fin s m e =>
    cases s with
    | false =>
      simp only [F64.lt, Bool.false_eq_true, if_false, zero_mul, decide_eq_true_eq] at h
      exact absurd h (by simp)
    | true =>
      have hm : m ≠ 0 := by
        rintro rfl
        simp [F64.lt] at h
      simp [F64.sqrt, hm]

/-- Dividing by a zero of either sign gives an infinity or not-a-number. -/
theorem F64.div_zero_isInf_or_isNaN (x : F64) (t : Bool) (e : Int) :
    (x / F64.fin t 0 e).isInf = true ∨ (x / F64.fin t 0 e).isNaN = true := by
  cases x with
  | nan => exact Or.inr rfl
  | inf s => exact Or.inl rfl
  | fin s m e1 =>
    show (F64.div (F64.fin s m e1) (F64.fin t 0 e)).isInf = true ∨
      (F64.div (F64.fin s m e1) (F64.fin t 0 e)).isNaN = true
    by_cases hm : m = 0
    · right; simp [F64.div, hm, F64.isNaN]
    · left; simp [F64.div, hm, F64.isInf]

/-- The product `2.0 * a` is a zero when `a` is. -/
theorem F64.two_mul_zero (t : Bool) (e : Int) :
    (2.0 : F64) * F64.fin t 0 e = F64.fin t 0 (-1074) := by
  rw [F64.lit_two]
  show F64.mul _ _ = _
  simp [F64.mul, F64.roundRN, F64.zero]

/-! ## Claims about special values and the calls of `main` -/

/-- C7, as amended: whenever the discriminant that the program computes in double
arithmetic, `pow(b, 2.0) - 4.0*a*c`, compares below zero, both elements of the pair
returned by `quadraticEquation(a, b, c)` are not-a-number, whatever function the `pow`
of the platform is: `sqrt` of the negative discriminant is not-a-number, and it goes
through the sum and the difference with `-b` and through the division by `2.0*a`.  The
model is a total function, no error is raised. -/
theorem C7_negative_discriminant_nan (powf : F64 → F64 → F64) (a b c : F64)
    (hd : F64.lt (powf b 2.0 - 4.0 * a * c) 0.0 = true) :
    (@quadraticEquation F64 _ _ _ _ _ _ (F64.libm powf) a b c).1.isNaN = true ∧
    (@quadraticEquation F64 _ _ _ _ _ _ (F64.libm powf) a b c).2.isNaN = true := by
  have hs : F64.sqrt (powf b 2.0 - 4.0 * a * c) = F64.nan := F64.sqrt_of_lt_zero _ hd
  have h1 : (@quadraticEquation F64 _ _ _ _ _ _ (F64.libm powf) a b c).1 = F64.nan := by
    show (-b + F64.sqrt (powf b 2.0 - 4.0 * a * c)) / (2.0 * a) = F64.nan
    rw [hs, F64.add_nan_right, F64.nan_div]
  have h2 : (@quadraticEquation F64 _ _ _ _ _ _ (F64.libm powf) a b c).2 = F64.nan := by
    show (-b - F64.sqrt (powf b 2.0 - 4.0 * a * c)) / (2.0 * a) = F64.nan
    rw [hs, F64.sub_nan_right, F64.nan_div]
  rw [h1, h2]
  exact ⟨rfl, rfl⟩

set_option exponentiation.threshold 4096 in
set_option maxRecDepth 10000 in
/-- Witness for C7 at `x² + x + 1 = 0`, with the correctly rounded square for `pow`: the
computed discriminant is `-3.0` and the pair is `(NaN, NaN)`. -/
theorem C7_negative_discriminant_nan_witness :
    F64.lt (F64.pow (1.0 : F64) 2.0 - 4.0 * 1.0 * 1.0) 0.0 = true ∧
    F64.pow (1.0 : F64) 2.0 - 4.0 * 1.0 * 1.0 = -3.0 ∧
    (@quadraticEquation F64 _ _ _ _ _ _ (F64.libm F64.pow) 1.0 1.0 1.0).1.isNaN = true ∧
    (@quadraticEquation F64 _ _ _ _ _ _ (F64.libm F64.pow) 1.0 1.0 1.0).2.isNaN = true :=
  ⟨by decide, by decide, C7_negative_discriminant_nan F64.pow 1.0 1.0 1.0 (by decide)⟩

set_option exponentiation.threshold 4096 in
set_option maxRecDepth 10000 in
/-- C7, the claim as stated fails: at `a = c = 2⁻⁶⁰⁰` and `b = 0` the leading coefficient
is not zero and the exact discriminant `b² − 4ac = −2⁻¹¹⁹⁸` is below zero, but the product
`4.0*a*c` underflows to zero, the computed discriminant is `+0`, and the pair returned is
`(+0, −0)`, neither element being not-a-number.  This holds for every `pow` with
`pow(0.0, 2.0) = +0`, the correctly rounded square among them. -/
theorem C7_exact_discriminant_counterexample :
    (F64.fin false 4503599627370496 (-652)).isZero = false ∧
    (∃ qa qb qc : ℚ,
      F64.toRat (F64.fin false 4503599627370496 (-652)) = some qa ∧
      F64.toRat (F64.fin false 0 (-1074)) = some qb ∧
      F64.toRat (F64.fin false 4503599627370496 (-652)) = some qc ∧
      qa ≠ 0 ∧ qb ^ 2 - 4 * qa * qc < 0) ∧
    (∀ powf : F64 → F64 → F64,
      powf (F64.fin false 0 (-1074)) 2.0 = F64.fin false 0 (-1074) →
      @quadraticEquation F64 _ _ _ _ _ _ (F64.libm powf)
          (F64.fin false 4503599627370496 (-652)) (F64.fin false 0 (-1074))
          (F64.fin false 4503599627370496 (-652))
        = (F64.fin false 0 (-1074), F64.fin true 0 (-1074))) ∧
    quadraticEquation (F64.fin false 4503599627370496 (-652)) (F64.fin false 0 (-1074))
        (F64.fin false 4503599627370496 (-652))
      = (F64.fin false 0 (-1074), F64.fin true 0 (-1074)) ∧
    (quadraticEquation (F64.fin false 4503599627370496 (-652)) (F64.fin false 0 (-1074))
        (F64.fin false 4503599627370496 (-652))).1.isNaN = false ∧
    (quadraticEquation (F64.fin false 4503599627370496 (-652)) (F64.fin false 0 (-1074))
        (F64.fin false 4503599627370496 (-652))).2.isNaN = false := by
  refine ⟨by decide, ?_, ?_, by decide, by decide, by decide⟩
  · refine ⟨_, _, _, rfl, rfl, rfl, ?_, ?_⟩
    · have hq : (0 : ℚ) < (2 : ℚ) ^ (-652 : ℤ) := by positivity
      simp only [Bool.false_eq_true, if_false, one_mul]
      positivity
    · have hx : (0 : ℚ) < ((4503599627370496 : ℕ) : ℚ) * (2 : ℚ) ^ (-652 : ℤ) := by positivity
      simp only [Bool.false_eq_true, if_false, one_mul, Nat.cast_zero, zero_mul]
      nlinarith [mul_pos hx hx]
  · intro powf h
    show ((-(F64.fin false 0 (-1074))
          + F64.sqrt (powf (F64.fin false 0 (-1074)) 2.0
              - 4.0 * F64.fin false 4503599627370496 (-652)
                * F64.fin false 4503599627370496 (-652)))
          / (2.0 * F64.fin false 4503599627370496 (-652)),
        (-(F64.fin false 0 (-1074))
          - F64.sqrt (powf (F64.fin false 0 (-1074)) 2.0
              - 4.0 * F64.fin false 4503599627370496 (-652)
                * F64.fin false 4503599627370496 (-652)))
          / (2.0 * F64.fin false 4503599627370496 (-652)))
      = (F64.fin false 0 (-1074), F64.fin true 0 (-1074))
    rw [h]
    decide

/-- C8: `quadraticEquation(2, 5, −3)`, with the integer inputs and with the double
inputs `(2.0, 5.0, −3.0)` as `main` calls it, returns exactly the pair `(0.5, −3.0)` in
that order, over the reals and in binary64 arithmetic alike. -/
theorem C8_quadraticEquation_scenario :
    ((quadraticEquationInt 2 5 (-3) : ℝ × ℝ) = (0.5, -3.0) ∧
      quadraticEquation (2.0 : ℝ) 5.0 (-3.0) = (0.5, -3.0) ∧
      (main : List (ℝ × ℝ)).drop 2 = [(0.5, -3.0), (0.5, -3.0)]) ∧
    ((quadraticEquationInt 2 5 (-3) : F64 × F64) = (0.5, -3.0) ∧
      quadraticEquation (2.0 : F64) 5.0 (-3.0) = (0.5, -3.0) ∧
      (main : List (F64 × F64)).drop 2 = [(0.5, -3.0), (0.5, -3.0)]) := by
  have hsqrt : Real.sqrt 49 = 7 := by
    rw [show (49 : ℝ) = 7 ^ 2 by norm_num]
    exact Real.sqrt_sq (by norm_num)
  have hdbl : quadraticEquation (2.0 : ℝ) 5.0 (-3.0) = (0.5, -3.0) := by
    rw [quadraticEquation_real]
    norm_num [hsqrt]
  have hint : (quadraticEquationInt 2 5 (-3) : ℝ × ℝ) = (0.5, -3.0) := by
    show quadraticEquation (((2 : Int) : ℝ)) ((5 : Int) : ℝ) ((-3 : Int) : ℝ) = (0.5, -3.0)
    rw [quadraticEquation_real]
    norm_num [hsqrt]
  refine ⟨⟨hint, hdbl, ?_⟩, by decide, by decide, by decide⟩
  show [(quadraticEquationInt 2 5 (-3) : ℝ × ℝ), quadraticEquation (2.0 : ℝ) 5.0 (-3.0)] = _
  rw [hint, hdbl]

/-- C9: `pythagoreanTheorem(2, 5)`, with the integer inputs and with the double inputs
`(2.0, 5.0)` as `main` calls it, returns `(√29, −√29)`: over the reals a pair `(h, −h)`
with `h² = 29` and `5.385 ≤ h < 5.386`; in binary64 arithmetic the pair `(h, −h)` with
`h = 6063156554684915 · 2⁻⁵⁰`, which lies in the same interval. -/
theorem C9_pythagoreanTheorem_scenario :
    ((pythagoreanTheoremInt 2 5 : ℝ × ℝ) = (Real.sqrt 29, -Real.sqrt 29) ∧
      pythagoreanTheorem (2.0 : ℝ) 5.0 = (Real.sqrt 29, -Real.sqrt 29) ∧
      (main : List (ℝ × ℝ)).take 2
        = [(Real.sqrt 29, -Real.sqrt 29), (Real.sqrt 29, -Real.sqrt 29)] ∧
      Real.sqrt 29 ^ 2 = 29 ∧ 5.385 ≤ Real.sqrt 29 ∧ Real.sqrt 29 < 5.386) ∧
    ((pythagoreanTheoremInt 2 5 : F64 × F64)
        = (F64.fin false 6063156554684915 (-50), F64.fin true 6063156554684915 (-50)) ∧
      pythagoreanTheorem (2.0 : F64) 5.0
        = (F64.fin false 6063156554684915 (-50), F64.fin true 6063156554684915 (-50)) ∧
      (main : List (F64 × F64)).take 2
        = [(F64.fin false 6063156554684915 (-50), F64.fin true 6063156554684915 (-50)),
           (F64.fin false 6063156554684915 (-50), F64.fin true 6063156554684915 (-50))] ∧
      ∃ h : ℚ, F64.toRat (F64.fin false 6063156554684915 (-50)) = some h ∧
        F64.toRat (F64.fin true 6063156554684915 (-50)) = some (-h) ∧
        5.385 ≤ h ∧ h < 5.386) := by
  have hdbl : pythagoreanTheorem (2.0 : ℝ) 5.0 = (Real.sqrt 29, -Real.sqrt 29) := by
    rw [pythagoreanTheorem_real]
    norm_num
  have hint : (pythagoreanTheoremInt 2 5 : ℝ × ℝ) = (Real.sqrt 29, -Real.sqrt 29) := by
    show pythagoreanTheorem (((2 : Int) : ℝ)) ((5 : Int) : ℝ) = _
    rw [pythagoreanTheorem_real]
    norm_num
  refine ⟨⟨hint, hdbl, ?_, Real.sq_sqrt (by norm_num), ?_, ?_⟩,
    by decide, by decide, by decide, ?_⟩
  · show [(pythagoreanTheoremInt 2 5 : ℝ × ℝ), pythagoreanTheorem (2.0 : ℝ) 5.0] = _
    rw [hint, hdbl]
  · exact Real.le_sqrt_of_sq_le (by norm_num)
  · rw [Real.sqrt_lt' (by norm_num)]
    norm_num
  · refine ⟨6063156554684915 / 2 ^ 50, ?_, ?_, ?_, ?_⟩
    · simp only [F64.toRat]
      norm_num
    · simp only [F64.toRat]
      norm_num
    · norm_num
    · norm_num

/-- C10: when the leading coefficient `a` is a zero (of either sign), the division by
`2.0*a = 0` in `quadraticEquation(0, b, c)` is unguarded and each of the two returned
elements is an infinity or not-a-number, never a finite number; this holds for all
`b, c`, the finite ones included.  The model is a total function, no error is raised. -/
theorem C10_zero_leading_coefficient (a b c : F64) (ha : a.isZero = true) :
    (((quadraticEquation a b c).1.isInf = true ∨ (quadraticEquation a b c).1.isNaN = true) ∧
      (quadraticEquation a b c).1.isFinite = false) ∧
    (((quadraticEquation a b c).2.isInf = true ∨ (quadraticEquation a b c).2.isNaN = true) ∧
      (quadraticEquation a b c).2.isFinite = false) := by
  have key : ∀ x : F64, (x.isInf = true ∨ x.isNaN = true) → x.isFinite = false := by
    intro x hx
    cases x <;> simp_all [F64.isInf, F64.isNaN, F64.isFinite]
  obtain ⟨t, e, rfl⟩ : ∃ t e, a = F64.fin t 0 e := by
    cases a with
    | nan => simp [F64.isZero] at ha
    | inf s => simp [F64.isZero] at ha
    | fin s m e => exact ⟨s, e, by simp [F64.isZero] at ha; rw [ha]⟩
  have h1 := F64.div_zero_isInf_or_isNaN
    (-b + CMath.sqrt (CMath.pow b 2.0 - 4.0 * F64.fin t 0 e * c)) t (-1074)
  have h2 := F64.div_zero_isInf_or_isNaN
    (-b - CMath.sqrt (CMath.pow b 2.0 - 4.0 * F64.fin t 0 e * c)) t (-1074)
  rw [← F64.two_mul_zero t e] at h1 h2
  exact ⟨⟨h1, key _ h1⟩, ⟨h2, key _ h2⟩⟩

/-- Witness for C10 at `0·x² + 5x − 3 = 0`: the pair is `(NaN, −∞)`. -/
theorem C10_zero_leading_coefficient_witness :
    (0.0 : F64).isZero = true ∧
    (((quadraticEquation (0.0 : F64) 5.0 (-3.0)).1.isInf = true ∨
        (quadraticEquation (0.0 : F64) 5.0 (-3.0)).1.isNaN = true) ∧
      (quadraticEquation (0.0 : F64) 5.0 (-3.0)).1.isFinite = false) ∧
    (((quadraticEquation (0.0 : F64) 5.0 (-3.0)).2.isInf = true ∨
        (quadraticEquation (0.0 : F64) 5.0 (-3.0)).2.isNaN = true) ∧
      (quadraticEquation (0.0 : F64) 5.0 (-3.0)).2.isFinite = false) :=
  ⟨by decide, C10_zero_leading_coefficient 0.0 5.0 (-3.0) (by decide)⟩

/-! ## Claims about `plusMinus<T>` over machine integers -/

theorem Signed.signed_eq_of_val_eq {w : Nat} {a b : Signed w} (h : a.val = b.val) : a = b := by
  cases a
  cases b
  simp_all

theorem Unsigned.unsigned_eq_of_val_eq {w : Nat} {a b : Unsigned w} (h : a.val = b.val) : a = b := by
  cases a
  cases b
  simp_all

theorem Signed.two_pow_eq (w : Nat) (hw : 0 < w) : (2 : Int) ^ w = 2 * 2 ^ (w - 1) := by
  obtain ⟨k, rfl⟩ : ∃ k, w = k + 1 := ⟨w - 1, by omega⟩
  rw [pow_succ, Nat.add_sub_cancel]
  ring

theorem Signed.wrap_of_inRange (w : Nat) (hw : 0 < w) (x : Int)
    (h1 : -(2 ^ (w - 1)) ≤ x) (h2 : x < 2 ^ (w - 1)) : Signed.wrap w x = x := by
  unfold Signed.wrap
  rw [Signed.two_pow_eq w hw, Int.emod_eq_of_lt (by omega) (by omega)]
  omega

theorem Signed.wrap_neg_min (w : Nat) (hw : 0 < w) :
    Signed.wrap w (-(-(2 ^ (w - 1)))) = -(2 ^ (w - 1)) := by
  unfold Signed.wrap
  rw [Signed.two_pow_eq w hw]
  have h : -(-(2 : Int) ^ (w - 1)) + 2 ^ (w - 1) = 2 * 2 ^ (w - 1) := by ring
  rw [h, Int.emod_self]
  omega

theorem Signed.signed_plusMinus_snd_val (w : Nat) (hw : 0 < w) (a : Signed w) :
    (plusMinus a).2.val = Signed.wrap w (-a.val) := by
  have hpos : (0 : Int) < 2 ^ (w - 1) := by positivity
  show Signed.wrap w (Signed.wrap w (-1) * a.val) = Signed.wrap w (-a.val)
  rw [Signed.wrap_of_inRange w hw (-1) (by omega) (by omega)]
  congr 1
  ring

/-- C11, as amended: for every value `a` of a signed `w`-bit integer type, element 0 of
`plusMinus(a)` is `a`; element 1 is the mathematical negation `−a` whenever `a` is not
the least value `−2^(w−1)`, and for the least value, whose negation the type does not
have, wraparound modulo `2^w` makes element 1 equal to `a` itself. -/
theorem C11_plusMinus_signed (w : Nat) (hw : 0 < w) (a : Signed w) (ha : a.InRange) :
    (plusMinus a).1 = a ∧
    (a.val ≠ -(2 ^ (w - 1)) → (plusMinus a).2.val = -a.val ∧ (plusMinus a).2.InRange) ∧
    (a.val = -(2 ^ (w - 1)) → (plusMinus a).2 = a) := by
  obtain ⟨h1, h2⟩ := ha
  refine ⟨rfl, fun hne => ?_, fun heq => ?_⟩
  · have hv : (plusMinus a).2.val = -a.val := by
      rw [Signed.signed_plusMinus_snd_val w hw a]
      exact Signed.wrap_of_inRange w hw _ (by omega) (by omega)
    refine ⟨hv, ?_⟩
    show -(2 ^ (w - 1)) ≤ (plusMinus a).2.val ∧ (plusMinus a).2.val < 2 ^ (w - 1)
    rw [hv]
    omega
  · have hv : (plusMinus a).2.val = a.val := by
      rw [Signed.signed_plusMinus_snd_val w hw a, heq]
      exact Signed.wrap_neg_min w hw
    exact Signed.signed_eq_of_val_eq hv

/-- Witness for C11 at the 32-bit values `5` and `−2^31`. -/
theorem C11_plusMinus_signed_witness :
    ((plusMinus (⟨5⟩ : Signed 32)).1 = ⟨5⟩ ∧
      (((⟨5⟩ : Signed 32).val ≠ -(2 ^ (32 - 1)) →
        (plusMinus (⟨5⟩ : Signed 32)).2.val = -(⟨5⟩ : Signed 32).val ∧
          (plusMinus (⟨5⟩ : Signed 32)).2.InRange)) ∧
      ((⟨5⟩ : Signed 32).val = -(2 ^ (32 - 1)) →
        (plusMinus (⟨5⟩ : Signed 32)).2 = ⟨5⟩)) ∧
    (plusMinus (⟨5⟩ : Signed 32)) = (⟨5⟩, ⟨-5⟩) :=
  ⟨C11_plusMinus_signed 32 (by decide) ⟨5⟩ (by decide), by decide⟩

/-- C11, the claim as stated fails at the least value: for the 32-bit `a = −2^31`, which
is a value of the type, element 1 of `plusMinus(a)` is `−2^31`, not `2^31 = −a`. -/
theorem C11_plusMinus_signed_min_counterexample :
    (⟨-2147483648⟩ : Signed 32).InRange ∧
    (plusMinus (⟨-2147483648⟩ : Signed 32)).2.val = -2147483648 ∧
    ¬ (plusMinus (⟨-2147483648⟩ : Signed 32)).2.val = -(⟨-2147483648⟩ : Signed 32).val := by
  decide

theorem Unsigned.cast_neg_one_val (w : Nat) : (((-1 : Int) : Unsigned w)).val = 2 ^ w - 1 := by
  show ((-1 : Int) % 2 ^ w).toNat = 2 ^ w - 1
  have hpos : (0 : Int) < 2 ^ w := by positivity
  have hmod : (-1 : Int) % 2 ^ w = 2 ^ w - 1 := by
    calc (-1 : Int) % 2 ^ w = ((2 ^ w - 1) + (-1) * 2 ^ w) % 2 ^ w := by
          congr 1
          ring
      _ = (2 ^ w - 1) % 2 ^ w := Int.add_mul_emod_self
      _ = 2 ^ w - 1 := Int.emod_eq_of_lt (by omega) (by omega)
  have hcast : (((2 ^ w - 1 : Nat)) : Int) = 2 ^ w - 1 := by
    push_cast [Nat.one_le_two_pow]
    rfl
  rw [hmod, ← hcast, Int.toNat_natCast]

theorem Unsigned.unsigned_plusMinus_snd_val (w : Nat) (a : Unsigned w) (ha : a.InRange) :
    (plusMinus a).2.val = (2 ^ w - a.val) % 2 ^ w := by
  show ((((-1 : Int) : Unsigned w)).val * a.val) % 2 ^ w = (2 ^ w - a.val) % 2 ^ w
  rw [Unsigned.cast_neg_one_val]
  have ha1 : a.val < 2 ^ w := ha
  rcases Nat.eq_zero_or_pos a.val with h0 | hpos
  · rw [h0]
    simp
  · obtain ⟨k, hk⟩ : ∃ k, a.val = k + 1 := ⟨a.val - 1, by omega⟩
    have e : (2 ^ w - 1) * a.val = (2 ^ w - a.val) + 2 ^ w * k := by
      rw [hk] at ha1 ⊢
      zify [Nat.one_le_two_pow, le_of_lt ha1]
      ring
    rw [e, Nat.add_mul_mod_self_left]

/-- C12: for an unsigned `w`-bit integer type the unary `plusMinus(a)` wraps instead of
inverting the sign: element 0 is `a`, element 1 is `(2^w − a) mod 2^w`; for every
`a ≠ 0` it is a positive value different from the mathematical `−a`; element 0 plus
element 1 is `0` modulo `2^w`; and for `a = 0` the result is `(0, 0)`. -/
theorem C12_plusMinus_unsigned (w : Nat) (a : Unsigned w) (ha : a.InRange) :
    (plusMinus a).1 = a ∧
    (plusMinus a).2.val = (2 ^ w - a.val) % 2 ^ w ∧
    (a.val ≠ 0 → 0 < (plusMinus a).2.val ∧ ((plusMinus a).2.val : Int) ≠ -(a.val : Int)) ∧
    (a.val + (plusMinus a).2.val) % 2 ^ w = 0 ∧
    (a.val = 0 → plusMinus a = (⟨0⟩, ⟨0⟩)) := by
  have hv := Unsigned.unsigned_plusMinus_snd_val w a ha
  have ha1 : a.val < 2 ^ w := ha
  refine ⟨rfl, hv, fun hne => ?_, ?_, fun h0 => ?_⟩
  · have hm : (2 ^ w - a.val) % 2 ^ w = 2 ^ w - a.val := Nat.mod_eq_of_lt (by omega)
    rw [hv, hm]
    constructor
    · omega
    · omega
  · rcases Nat.eq_zero_or_pos a.val with h0 | hpos
    · rw [hv, h0]
      simp
    · have hm : (2 ^ w - a.val) % 2 ^ w = 2 ^ w - a.val := Nat.mod_eq_of_lt (by omega)
      rw [hv, hm, Nat.add_sub_cancel' (le_of_lt ha1), Nat.mod_self]
  · have h2 : (plusMinus a).2.val = 0 := by
      rw [hv, h0]
      simp
    exact Prod.ext (Unsigned.unsigned_eq_of_val_eq h0) (Unsigned.unsigned_eq_of_val_eq h2)

/-- Witness for C12 at the 32-bit value `5`, whose pair is `(5, 4294967291)`. -/
theorem C12_plusMinus_unsigned_witness :
    ((plusMinus (⟨5⟩ : Unsigned 32)).1 = ⟨5⟩ ∧
      (plusMinus (⟨5⟩ : Unsigned 32)).2.val = (2 ^ 32 - (⟨5⟩ : Unsigned 32).val) % 2 ^ 32 ∧
      ((⟨5⟩ : Unsigned 32).val ≠ 0 → 0 < (plusMinus (⟨5⟩ : Unsigned 32)).2.val ∧
        ((plusMinus (⟨5⟩ : Unsigned 32)).2.val : Int) ≠ -((⟨5⟩ : Unsigned 32).val : Int)) ∧
      ((⟨5⟩ : Unsigned 32).val + (plusMinus (⟨5⟩ : Unsigned 32)).2.val) % 2 ^ 32 = 0 ∧
      ((⟨5⟩ : Unsigned 32).val = 0 → plusMinus (⟨5⟩ : Unsigned 32) = (⟨0⟩, ⟨0⟩))) ∧
    plusMinus (⟨5⟩ : Unsigned 32) = (⟨5⟩, ⟨4294967291⟩) :=
  ⟨C12_plusMinus_unsigned 32 ⟨5⟩ (by decide), by decide⟩

/-! ## Further claims about the solvers over the reals -/

/-- C14: completeness of the quadratic solver.  For all real `a, b, c` with `a ≠ 0` and
`b² − 4ac ≥ 0`, every real `x` with `a·x² + b·x + c = 0` equals `result[0]` or
`result[1]` of `quadraticEquation(a, b, c)`: the pair holds all the real roots. -/
theorem C14_quadraticEquation_complete (a b c x : ℝ) (ha : a ≠ 0)
    (hd : 0 ≤ b ^ 2 - 4 * a * c) (hx : a * x ^ 2 + b * x + c = 0) :
    x = (quadraticEquation a b c).1 ∨ x = (quadraticEquation a b c).2 := by
  rw [quadraticEquation_real]
  have hs : Real.sqrt (b ^ 2 - 4 * a * c) ^ 2 = b ^ 2 - 4 * a * c := Real.sq_sqrt hd
  generalize Real.sqrt (b ^ 2 - 4 * a * c) = s at hs
  have h2a : (2 * a) ≠ 0 := mul_ne_zero two_ne_zero ha
  have hprod : (2 * a * x + b - s) * (2 * a * x + b + s) = 0 := by
    linear_combination 4 * a * hx - hs
  rcases mul_eq_zero.mp hprod with h | h
  · left
    show x = (-b + s) / (2 * a)
    rw [eq_div_iff h2a]
    linear_combination h
  · right
    show x = (-b - s) / (2 * a)
    rw [eq_div_iff h2a]
    linear_combination h

/-- Witness for C14: `x = −3` is a root of `2x² + 5x − 3` and is one of the two values. -/
theorem C14_quadraticEquation_complete_witness :
    (-3 : ℝ) = (quadraticEquation (2 : ℝ) 5 (-3)).1 ∨
    (-3 : ℝ) = (quadraticEquation (2 : ℝ) 5 (-3)).2 :=
  C14_quadraticEquation_complete 2 5 (-3) (-3) (by norm_num) (by norm_num) (by norm_num)

/-- C15: Vieta relations.  For all real `a, b, c` with `a ≠ 0` and `b² − 4ac ≥ 0`, the
pair `(r0, r1)` returned by `quadraticEquation(a, b, c)` has `r0 + r1 = −b/a` and
`r0 · r1 = c/a`. -/
theorem C15_quadraticEquation_vieta (a b c : ℝ) (ha : a ≠ 0) (hd : 0 ≤ b ^ 2 - 4 * a * c) :
    (quadraticEquation a b c).1 + (quadraticEquation a b c).2 = -b / a ∧
    (quadraticEquation a b c).1 * (quadraticEquation a b c).2 = c / a := by
  rw [quadraticEquation_real]
  have hs : Real.sqrt (b ^ 2 - 4 * a * c) ^ 2 = b ^ 2 - 4 * a * c := Real.sq_sqrt hd
  generalize Real.sqrt (b ^ 2 - 4 * a * c) = s at hs
  constructor
  · show (-b + s) / (2 * a) + (-b - s) / (2 * a) = -b / a
    field_simp
    ring
  · show (-b + s) / (2 * a) * ((-b - s) / (2 * a)) = c / a
    have h : (-b + s) / (2 * a) * ((-b - s) / (2 * a))
        = (b ^ 2 - s ^ 2) / (4 * a ^ 2) := by
      field_simp
      ring
    rw [h, hs]
    field_simp
    ring

/-- Witness for C15 at `2x² + 5x − 3`: the sum is `−5/2` and the product `−3/2`. -/
theorem C15_quadraticEquation_vieta_witness :
    (quadraticEquation (2 : ℝ) 5 (-3)).1 + (quadraticEquation (2 : ℝ) 5 (-3)).2 = -5 / 2 ∧
    (quadraticEquation (2 : ℝ) 5 (-3)).1 * (quadraticEquation (2 : ℝ) 5 (-3)).2 = -3 / 2 :=
  C15_quadraticEquation_vieta 2 5 (-3) (by norm_num) (by norm_num)

/-- C16: the order of the pair follows the sign of `a`, not the numeric order.  For real
`a, b, c` with `b² − 4ac ≥ 0`, `quadraticEquation(a, b, c) = (r0, r1)` has `r0 ≥ r1` when
`a > 0` and `r0 ≤ r1` when `a < 0`; and, `a` being nonzero so that `−b/(2a)` is a
number, `r0 = r1` exactly when `b² − 4ac = 0`, the common value then being `−b/(2a)`. -/
theorem C16_quadraticEquation_order (a b c : ℝ) (hd : 0 ≤ b ^ 2 - 4 * a * c) :
    (0 < a → (quadraticEquation a b c).2 ≤ (quadraticEquation a b c).1) ∧
    (a < 0 → (quadraticEquation a b c).1 ≤ (quadraticEquation a b c).2) ∧
    (a ≠ 0 → ((quadraticEquation a b c).1 = (quadraticEquation a b c).2 ↔
      b ^ 2 - 4 * a * c = 0)) ∧
    (a ≠ 0 → b ^ 2 - 4 * a * c = 0 →
      (quadraticEquation a b c).1 = -b / (2 * a) ∧
      (quadraticEquation a b c).2 = -b / (2 * a)) := by
  rw [quadraticEquation_real]
  have hs0 : 0 ≤ Real.sqrt (b ^ 2 - 4 * a * c) := Real.sqrt_nonneg _
  have hz : Real.sqrt (b ^ 2 - 4 * a * c) = 0 ↔ b ^ 2 - 4 * a * c = 0 := Real.sqrt_eq_zero hd
  generalize Real.sqrt (b ^ 2 - 4 * a * c) = s at hs0 hz
  refine ⟨fun ha => ?_, fun ha => ?_, fun ha => ?_, fun ha h0 => ?_⟩
  · show (-b - s) / (2 * a) ≤ (-b + s) / (2 * a)
    exact div_le_div_of_nonneg_right (by linarith) (by linarith)
  · show (-b + s) / (2 * a) ≤ (-b - s) / (2 * a)
    exact div_le_div_of_nonpos_of_le (by linarith) (by linarith)
  · show (-b + s) / (2 * a) = (-b - s) / (2 * a) ↔ b ^ 2 - 4 * a * c = 0
    have h2a : (2 * a) ≠ 0 := mul_ne_zero two_ne_zero ha
    rw [← hz, div_left_inj' h2a]
    constructor
    · intro h
      linarith
    · intro h
      rw [h]
      ring
  · have hs : s = 0 := hz.mpr h0
    subst hs
    exact ⟨by show (-b + 0) / (2 * a) = _; rw [add_zero],
      by show (-b - 0) / (2 * a) = _; rw [sub_zero]⟩

/-- Witness for C16 at `−x² + 1`, where `a < 0` and the discriminant is `4`: the pair is
`(−1, 1)`, element 0 being the smaller, and the two elements differ. -/
theorem C16_quadraticEquation_order_witness :
    (0 : ℝ) ≤ 0 ^ 2 - 4 * (-1) * 1 ∧
    (quadraticEquation (-1 : ℝ) 0 1).1 ≤ (quadraticEquation (-1 : ℝ) 0 1).2 ∧
    ((quadraticEquation (-1 : ℝ) 0 1).1 = (quadraticEquation (-1 : ℝ) 0 1).2 ↔
      (0 : ℝ) ^ 2 - 4 * (-1) * 1 = 0) :=
  ⟨by norm_num, (C16_quadraticEquation_order (-1) 0 1 (by norm_num)).2.1 (by norm_num),
    (C16_quadraticEquation_order (-1) 0 1 (by norm_num)).2.2.1 (by norm_num)⟩

/-- C17: `pythagoreanTheorem` depends only on the magnitudes of its legs and not on
their order: for all real `b, c` the pairs at `(b, c)`, `(c, b)`, `(−b, c)` and `(b, −c)`
are equal, and the first element `h` has `max(|b|, |c|) ≤ h ≤ |b| + |c|`. -/
theorem C17_pythagoreanTheorem_symmetry (b c : ℝ) :
    pythagoreanTheorem b c = pythagoreanTheorem c b ∧
    pythagoreanTheorem b c = pythagoreanTheorem (-b) c ∧
    pythagoreanTheorem b c = pythagoreanTheorem b (-c) ∧
    max |b| |c| ≤ (pythagoreanTheorem b c).1 ∧
    (pythagoreanTheorem b c).1 ≤ |b| + |c| := by
  simp only [pythagoreanTheorem_real]
  refine ⟨by rw [add_comm], by rw [neg_sq], by rw [neg_sq], ?_, ?_⟩
  · apply max_le
    · rw [← Real.sqrt_sq_eq_abs]
      exact Real.sqrt_le_sqrt (le_add_of_nonneg_right (sq_nonneg c))
    · rw [← Real.sqrt_sq_eq_abs]
      exact Real.sqrt_le_sqrt (le_add_of_nonneg_left (sq_nonneg b))
  · rw [Real.sqrt_le_left (add_nonneg (abs_nonneg b) (abs_nonneg c))]
    have h : (|b| + |c|) ^ 2 = b ^ 2 + c ^ 2 + 2 * (|b| * |c|) := by
      rw [add_sq, sq_abs, sq_abs]
      ring
    rw [h]
    have := mul_nonneg (abs_nonneg b) (abs_nonneg c)
    linarith

/-! ## The argument of `sqrt` in `pythagoreanTheorem` -/

theorem F64.roundRN_shape (s : Bool) (M : Nat) (E : Int) :
    F64.roundRN s M E = F64.inf s ∨ ∃ m e, F64.roundRN s M E = F64.fin s m e := by
  have hfin : ∀ m e, F64.finish s m e = F64.inf s ∨ ∃ m1 e1, F64.finish s m e = F64.fin s m1 e1 := by
    intro m e
    unfold F64.finish
    split
    · exact Or.inl rfl
    · exact Or.inr ⟨m, e, rfl⟩
  unfold F64.roundRN
  split
  · exact Or.inr ⟨0, -1074, rfl⟩
  · simp only
    split
    · exact hfin _ _
    · split
      · exact hfin _ _
      · exact hfin _ _

theorem F64.lit_neg_one : ((-1 : Int) : F64) = F64.fin true 4503599627370496 (-52) := by
  decide

/-- The square `pow(x, 2.0)` of a datum that is not not-a-number is `+∞` or a finite
datum with the sign bit clear. -/
theorem F64.pow_two_shape (x : F64) (hx : x.isNaN = false) :
    CMath.pow x (2.0 : F64) = F64.inf false ∨ ∃ m e, CMath.pow x (2.0 : F64) = F64.fin false m e := by
  show F64.pow x 2.0 = _ ∨ ∃ m e, F64.pow x 2.0 = _
  have h2 : F64.isTwo (2.0 : F64) = true := by decide
  unfold F64.pow
  rw [if_pos h2]
  cases x with
  | nan => simp [F64.isNaN] at hx
  | inf s => exact Or.inl rfl
  | fin s m e => exact F64.roundRN_shape false _ _

/-- The sum of two data that are `+∞` or finite with the sign bit clear is again so. -/
theorem F64.add_shape (x y : F64)
    (hx : x = F64.inf false ∨ ∃ m e, x = F64.fin false m e)
    (hy : y = F64.inf false ∨ ∃ m e, y = F64.fin false m e) :
    x + y = F64.inf false ∨ ∃ m e, x + y = F64.fin false m e := by
  show F64.add x y = _ ∨ ∃ m e, F64.add x y = _
  rcases hx with rfl | ⟨m1, e1, rfl⟩ <;> rcases hy with rfl | ⟨m2, e2, rfl⟩
  · exact Or.inl rfl
  · exact Or.inl rfl
  · exact Or.inl rfl
  · simp only [F64.add, if_true]
    exact F64.roundRN_shape false _ _

/-- The square root of a datum that is `+∞` or finite with the sign bit clear is again
so; in particular it is not not-a-number. -/
theorem F64.sqrt_shape (x : F64) (hx : x = F64.inf false ∨ ∃ m e, x = F64.fin false m e) :
    F64.sqrt x = F64.inf false ∨ ∃ m e, F64.sqrt x = F64.fin false m e := by
  rcases hx with rfl | ⟨m, e, rfl⟩
  · exact Or.inl rfl
  · by_cases hm : m = 0
    · exact Or.inr ⟨0, -1074, by simp [F64.sqrt, hm, F64.zero]⟩
    · simp only [F64.sqrt, hm, if_false, Bool.false_eq_true]
      split
      · exact F64.roundRN_shape false _ _
      · exact F64.roundRN_shape false _ _

theorem F64.shape_not_lt_zero (x : F64) (hx : x = F64.inf false ∨ ∃ m e, x = F64.fin false m e) :
    F64.lt x 0.0 = false ∧ x.isNaN = false := by
  rw [F64.lit_zero]
  rcases hx with rfl | ⟨m, e, rfl⟩
  · exact ⟨rfl, rfl⟩
  · refine ⟨?_, rfl⟩
    simp [F64.lt]

theorem F64.neg_one_mul_shape (x : F64) (hx : x = F64.inf false ∨ ∃ m e, x = F64.fin false m e) :
    (((-1 : Int) : F64) * x).isNaN = false := by
  rw [F64.lit_neg_one]
  show (F64.mul _ x).isNaN = false
  rcases hx with rfl | ⟨m, e, rfl⟩
  · simp [F64.mul, F64.isNaN]
  · simp only [F64.mul]
    rcases F64.roundRN_shape (xor true false) (4503599627370496 * m) (-52 + e) with h | ⟨m1, e1, h⟩
    · rw [h]; rfl
    · rw [h]; rfl

/-- C13: the argument that `pythagoreanTheorem` passes to `sqrt` is a sum of squares and
never negative, so the square root is within its domain for every input.  Over the
reals: the argument is `b² + c² ≥ 0` and `sqrt` inverts the square on it.  In binary64
arithmetic: for all `b, c` that are not not-a-number the argument neither compares
below zero nor is not-a-number, and neither element of the result is not-a-number. -/
theorem C13_pythagoreanTheorem_sqrt_domain :
    (∀ b c : ℝ,
      pythagoreanTheorem b c
        = plusMinus (CMath.sqrt (CMath.pow b (2.0 : ℝ) + CMath.pow c (2.0 : ℝ))) ∧
      CMath.pow b (2.0 : ℝ) + CMath.pow c (2.0 : ℝ) = b ^ 2 + c ^ 2 ∧
      0 ≤ CMath.pow b (2.0 : ℝ) + CMath.pow c (2.0 : ℝ) ∧
      CMath.sqrt (CMath.pow b (2.0 : ℝ) + CMath.pow c (2.0 : ℝ)) ^ 2
        = CMath.pow b (2.0 : ℝ) + CMath.pow c (2.0 : ℝ)) ∧
    (∀ b c : F64, b.isNaN = false → c.isNaN = false →
      pythagoreanTheorem b c
        = plusMinus (CMath.sqrt (CMath.pow b (2.0 : F64) + CMath.pow c (2.0 : F64))) ∧
      F64.lt (CMath.pow b (2.0 : F64) + CMath.pow c (2.0 : F64)) 0.0 = false ∧
      (CMath.pow b (2.0 : F64) + CMath.pow c (2.0 : F64)).isNaN = false ∧
      (pythagoreanTheorem b c).1.isNaN = false ∧
      (pythagoreanTheorem b c).2.isNaN = false) := by
  constructor
  · intro b c
    have harg : CMath.pow b (2.0 : ℝ) + CMath.pow c (2.0 : ℝ) = b ^ 2 + c ^ 2 := by
      simp only [lit_two_real, cmath_pow_two_real]
    have hnn : (0 : ℝ) ≤ b ^ 2 + c ^ 2 := add_nonneg (sq_nonneg b) (sq_nonneg c)
    refine ⟨rfl, harg, by rw [harg]; exact hnn, ?_⟩
    rw [harg, cmath_sqrt_real]
    exact Real.sq_sqrt hnn
  · intro b c hb hc
    have harg := F64.add_shape _ _ (F64.pow_two_shape b hb) (F64.pow_two_shape c hc)
    have hsq := F64.sqrt_shape _ harg
    obtain ⟨h1, h2⟩ := F64.shape_not_lt_zero _ harg
    refine ⟨rfl, h1, h2, ?_, ?_⟩
    · exact (F64.shape_not_lt_zero _ hsq).2
    · exact F64.neg_one_mul_shape _ hsq

set_option exponentiation.threshold 4096 in
set_option maxRecDepth 10000 in
/-- Evaluation for C13: at the legs `−3.0` and `4.0` the argument of `sqrt` is `25.0`,
which does not compare below zero, and the pair is `(5.0, −5.0)`. -/
theorem C13_pythagoreanTheorem_sqrt_domain_witness :
    CMath.pow (-3.0 : F64) 2.0 + CMath.pow (4.0 : F64) 2.0 = 25.0 ∧
    F64.lt (CMath.pow (-3.0 : F64) 2.0 + CMath.pow (4.0 : F64) 2.0) 0.0 = false ∧
    pythagoreanTheorem (-3.0 : F64) 4.0 = (5.0, -5.0) ∧
    (pythagoreanTheorem (-3.0 : F64) 4.0).1.isNaN = false :=
  ⟨by decide, by decide, by decide,
    (C13_pythagoreanTheorem_sqrt_domain.2 (-3.0) 4.0 (by decide) (by decide)).2.2.2.1⟩

end NumericalTypeSystemExample
